import Mathlib

/-!
Shallow embedding of the state-access core of the Polkadot light/full client:
the storage backend, the two-tier overlay of pending writes, the merged
externalities view (`Ext`), and the local/remote call executors with their
execution-proof verification (src/substrate/state-machine/src/ext.rs and
src/substrate/client/src/call_executor.rs).

Byte strings (`Vec<u8>`) are `List Nat`; hash maps (`HashMap<Vec<u8>, _>`)
are association lists with replace-on-insert semantics, together with a
well-formedness predicate (`WFStore`: keys are pairwise distinct) that every
Rust `HashMap` satisfies by construction.  The opaque trie-root function is
modelled as the canonical (key-sorted) form of the key/value set: a pure,
deterministic function that is order-independent over its input set, as the
trie contract requires.
-/

namespace Polkadot

/-- Raw bytes (`Vec<u8>`). -/
abbrev Bytes := List Nat

/-- An association-list model of `HashMap<Vec<u8>, α>`: the in-memory state
backend (`α = Bytes`) and each overlay tier (`α = Option Bytes`). -/
abbrev KVList (α : Type) := List (Bytes × α)

/-- A key/value state snapshot, as held by `InMemoryStateBackend`. -/
abbrev Store := KVList Bytes

/-- One overlay tier: key to optional value, `none` being a tombstone. -/
abbrev OStore := KVList (Option Bytes)

/-- `HashMap::insert`: replace the binding of `k` in place, or append it. -/
def insertKV {α : Type} (k : Bytes) (v : α) : KVList α → KVList α
  | [] => [(k, v)]
  | p :: rest => if k = p.1 then (k, v) :: rest else p :: insertKV k v rest

/-- `HashMap::get`: the value bound to `k`, if any. -/
def lookupKV {α : Type} (k : Bytes) : KVList α → Option α
  | [] => none
  | p :: rest => if k = p.1 then some p.2 else lookupKV k rest

/-- The binding of `k` that survives when the list is folded into a hash map
front to back: its last occurrence. -/
def lookupLast {α : Type} (k : Bytes) : KVList α → Option α
  | [] => none
  | p :: rest =>
    match lookupLast k rest with
    | some v => some v
    | none => if k = p.1 then some p.2 else none

/-- Hash-map well-formedness: all keys distinct.  Every store built through
`insertKV` satisfies this, mirroring the `HashMap` invariant. -/
def WFStore {α : Type} (m : KVList α) : Prop := (m.map Prod.fst).Nodup

instance WFStore.decidable {α : Type} (m : KVList α) : Decidable (WFStore m) := by
  unfold WFStore
  infer_instance

/-- Strict lexicographic order on byte strings, used only to canonicalize the
pair set fed to the modelled trie-root function. -/
def bytesLt : Bytes → Bytes → Bool
  | [], [] => false
  | [], _ :: _ => true
  | _ :: _, [] => false
  | a :: as, b :: bs => if a < b then true else if b < a then false else bytesLt as bs

/-- Key-ordered insert, replacing an existing binding of the same key. -/
def sortedInsert (k : Bytes) (v : Bytes) : Store → Store
  | [] => [(k, v)]
  | p :: rest =>
    if bytesLt k p.1 then (k, v) :: p :: rest
    else if k = p.1 then (k, v) :: rest
    else p :: sortedInsert k v rest

/-- Canonical (key-sorted, key-unique) form of a pair list. -/
def canon (s : Store) : Store := s.foldl (fun acc p => sortedInsert p.1 p.2 acc) []

/-- Model of the opaque `triehash::trie_root` collaborator: a deterministic
commitment over a key/value set, order-independent over well-formed
representations of the same set (it canonicalizes its input). -/
def trie_root (s : Store) : Store := canon s

/-- `OverlayedChanges`: the two-tier pending-write journal.  The struct shape
(two maps from key to optional value, named committed and prospective) is the
one `ext.rs` reads through `overlay.committed` / `overlay.prospective`. -/
structure OverlayedChanges where
  committed : OStore
  prospective : OStore
deriving DecidableEq

/-- `OverlayedChanges::default()`: both tiers empty. -/
def OverlayedChanges.empty : OverlayedChanges := ⟨[], []⟩

/-- Modelled from the spec: `OverlayedChanges::storage` is not under src/.
Per the spec, `none` means the overlay has no opinion, `some none` a
deletion, `some (some v)` an override, with prospective overriding
committed. -/
def OverlayedChanges.storage (ov : OverlayedChanges) (k : Bytes) : Option (Option Bytes) :=
  match lookupKV k ov.prospective with
  | some v => some v
  | none => lookupKV k ov.committed

/-- Modelled from the spec: `OverlayedChanges::set_storage` is not under
src/.  Per the spec it records the write or deletion into the prospective
tier only. -/
def OverlayedChanges.set_storage (ov : OverlayedChanges) (k : Bytes) (v : Option Bytes) :
    OverlayedChanges :=
  { ov with prospective := insertKV k v ov.prospective }

/-- `Ext`: the merged externalities view over one overlay and one backend
(the backend being an in-memory `Store` snapshot whose `storage` never
fails, per the backend contract). -/
structure Ext where
  overlay : OverlayedChanges
  backend : Store
deriving DecidableEq

/-- `Ext::storage`: resolve via the overlay; on no opinion, fall back to the
backend. -/
def Ext.storage (e : Ext) (k : Bytes) : Option Bytes :=
  match e.overlay.storage k with
  | some x => x
  | none => lookupKV k e.backend

/-- `Ext::place_storage`: write through to the overlay. -/
def Ext.place_storage (e : Ext) (k : Bytes) (v : Option Bytes) : Ext :=
  { e with overlay := e.overlay.set_storage k v }

/-- `Ext::chain_id`: the fixed protocol constant. -/
def Ext.chain_id (_ : Ext) : Nat := 42

/-- The hash map collected in `Ext::storage_root`: backend pairs mapped to
`(k, some v)`, chained with the committed then the prospective tier, folded
into a fresh map (later entries replacing earlier ones). -/
def mergedOverlay (e : Ext) : OStore :=
  ((e.backend.map fun p => (p.1, some p.2)) ++ e.overlay.committed ++ e.overlay.prospective).foldl
    (fun m p => insertKV p.1 p.2 m) []

/-- The `filter_map` step of `Ext::storage_root`: drop tombstoned keys. -/
def dropTombstones (m : OStore) : Store :=
  m.filterMap fun p => p.2.map fun v => (p.1, v)

/-- `Ext::storage_root`: trie root of the merged, tombstone-free pair set. -/
def Ext.storage_root (e : Ext) : Store :=
  trie_root (dropTombstones (mergedOverlay e))

/-- `primitives::block::Id`. -/
inductive BlockId where
  | hash (h : Nat)
  | number (n : Nat)
deriving DecidableEq

/-- A block header, reduced to the one field the executors read. -/
structure Header where
  state_root : Store
deriving DecidableEq

/-- Client errors.  The `backend`, `unknownBlock` and `execution` variants
are declared in src/substrate/client/src/error.rs; `invalidExecutionProof`
and `notAvailableOnLightClient` are referenced by call_executor.rs but their
declarations are not under src/ — modelled from the spec's error taxonomy
(security-relevant verification failure; capability unsupported in light
mode). -/
inductive ClientError where
  | backend (s : String)
  | unknownBlock (id : BlockId)
  | execution
  | blockchain
  | invalidExecutionProof
  | notAvailableOnLightClient
deriving DecidableEq

/-- Information regarding the result of a call (`CallResult`). -/
structure CallResult where
  return_data : Bytes
  changes : OverlayedChanges
deriving DecidableEq

/-- Modelled from the spec: the opaque `CodeExecutor` collaborator (its
implementation is out of scope).  Given the full state snapshot, a method
name and input bytes it either fails or produces output bytes together with
the sequence of storage mutations it performs, each of which the state
machine applies through `Ext::place_storage`. -/
abbrev CodeExec := Store → String → Bytes → Except ClientError (Bytes × List (Bytes × Option Bytes))

/-- Modelled from the spec: `state_machine::execute` is not under src/.  It
runs the opaque executor against an `Ext` built over the given backend and
overlayed changes, applying every mutation through `Ext::place_storage`, and
returns the output bytes together with the mutated changes. -/
def stateMachineExecute (exec : CodeExec) (state : Store) (changes : OverlayedChanges)
    (method : String) (callData : Bytes) : Except ClientError (Bytes × OverlayedChanges) :=
  match exec state method callData with
  | .error e => .error e
  | .ok (out, writes) =>
    .ok (out, (writes.foldl (fun (e : Ext) w => e.place_storage w.1 w.2) ⟨changes, state⟩).overlay)

/-- `state_to_execution_proof`: flatten the state's pairs into alternating
key, value byte strings. -/
def state_to_execution_proof (state : Store) : List Bytes :=
  state.flatMap fun p => [p.1, p.2]

/-- The decode loop of `state_from_execution_proof`: take a key and a value
from the iterator; if both are present insert them, otherwise stop. -/
def fromProofLoop : List Bytes → Store → Store
  | key :: value :: rest, state => fromProofLoop rest (insertKV key value state)
  | _, state => state

/-- `state_from_execution_proof`: rebuild an in-memory backend from the
flattened proof, consuming it as consecutive (key, value) pairs. -/
def state_from_execution_proof (proof : List Bytes) : Store :=
  fromProofLoop proof []

/-- The collaborators a `RemoteCallExecutor` holds: the blockchain lookup
(through its backend), the fetcher, and the code executor. -/
structure RemoteNode where
  blockchainHash : Nat → Except ClientError (Option Nat)
  blockchainHeader : Nat → Except ClientError (Option Header)
  execution_proof : Nat → String → Bytes → Except ClientError (Bytes × List Bytes)
  executor : CodeExec

/-- Block-id resolution at the start of `RemoteCallExecutor::call`: a hash
is used as is; a number is looked up via the blockchain, an unknown number
giving `UnknownBlock`. -/
def resolveBlockHash (node : RemoteNode) (id : BlockId) : Except ClientError Nat :=
  match id with
  | .hash h => .ok h
  | .number n =>
    match node.blockchainHash n with
    | .ok (some h) => .ok h
    | .ok none => .error (.unknownBlock (.number n))
    | .error e => .error e

/-- `RemoteCallExecutor::call`: fetch `(remote_result, remote_proof)`,
rebuild the state from the proof, compare its trie root with the state root
of the locally-held header, re-execute locally on the rebuilt state with
fresh changes, compare outputs, and only then return the local result. -/
def RemoteCallExecutor.call (node : RemoteNode) (id : BlockId) (method : String)
    (callData : Bytes) : Except ClientError CallResult :=
  match resolveBlockHash node id with
  | .error e => .error e
  | .ok block_hash =>
    match node.execution_proof block_hash method callData with
    | .error e => .error e
    | .ok (remote_result, remote_proof) =>
      let remote_state := state_from_execution_proof remote_proof
      let remote_state_root := trie_root remote_state
      match node.blockchainHeader block_hash with
      | .error e => .error e
      | .ok none => .error (.unknownBlock (.hash block_hash))
      | .ok (some local_header) =>
        if remote_state_root ≠ local_header.state_root then
          .error .invalidExecutionProof
        else
          match stateMachineExecute node.executor remote_state OverlayedChanges.empty
              method callData with
          | .error e => .error e
          | .ok (local_result, changes) =>
            if local_result ≠ remote_result then
              .error .invalidExecutionProof
            else
              .ok ⟨local_result, changes⟩

/-- `RemoteCallExecutor::call_at_state`: unconditionally
`NotAvailableOnLightClient`. -/
def RemoteCallExecutor.call_at_state (_node : RemoteNode) (_state : Store)
    (_changes : OverlayedChanges) (_method : String) (_callData : Bytes) :
    Except ClientError Bytes :=
  .error .notAvailableOnLightClient

/-- The collaborators a `LocalCallExecutor` holds: its backend's
`state_at` and the code executor. -/
structure LocalNode where
  state_at : BlockId → Except ClientError Store
  executor : CodeExec

/-- `LocalCallExecutor::call`: resolve the state for the block, start from
`OverlayedChanges::default()`, execute, and return output plus changes. -/
def LocalCallExecutor.call (node : LocalNode) (id : BlockId) (method : String)
    (callData : Bytes) : Except ClientError CallResult :=
  match node.state_at id with
  | .error e => .error e
  | .ok state =>
    match stateMachineExecute node.executor state OverlayedChanges.empty method callData with
    | .error e => .error e
    | .ok (return_data, changes) => .ok ⟨return_data, changes⟩

/-- `LocalCallExecutor::call_at_state`: execute against the caller-supplied
state and changes. -/
def LocalCallExecutor.call_at_state (node : LocalNode) (state : Store)
    (changes : OverlayedChanges) (method : String) (callData : Bytes) :
    Except ClientError (Bytes × OverlayedChanges) :=
  stateMachineExecute node.executor state changes method callData

/-- Keys sorted strictly ascending: the shape of a canonicalized pair set. -/
def SortedKeys (s : Store) : Prop := s.Pairwise fun p q => bytesLt p.1 q.1 = true

/-- Every key mentioned by the backend or either overlay tier. -/
def extKeys (e : Ext) : List Bytes :=
  (e.backend.map Prod.fst ++ e.overlay.committed.map Prod.fst ++
    e.overlay.prospective.map Prod.fst).dedup

/-- The merged key/value set as the spec describes it, built independently of
the fold in Ext::storage_root: for each key of the backend or of either tier,
resolve its value with precedence prospective over committed over backend
(that is, the value Ext::storage reads), and keep the key exactly when the
resolved value is not a tombstone. -/
def specMergedSet (e : Ext) : Store :=
  (extKeys e).filterMap fun k => (e.storage k).map fun v => (k, v)

-- ### Concrete fixtures used by the witness theorems

/-- A sample externalities view: key [1] lives in the backend, the committed
tier and the prospective tier at once; key [5] is tombstoned prospectively
over a backend value; key [7] is committed only. -/
def sampleExt : Ext :=
  { overlay :=
      { committed := [([1], some [3]), ([7], some [8])]
        prospective := [([1], some [4]), ([5], none)] }
    backend := [([1], [2]), ([5], [6])] }

/-- A remote node whose fetched proof rebuilds to a state whose root does not
match the locally-held header's state root. -/
def sampleRemoteBadProof : RemoteNode :=
  { blockchainHash := fun _ => .ok (some 1)
    blockchainHeader := fun _ => .ok (some ⟨[([1], [1])]⟩)
    execution_proof := fun _ _ _ => .ok ([4, 2], [[1], [9]])
    executor := fun _ _ _ => .ok ([4, 2], []) }

/-- A remote node whose proof matches the header root but whose local
re-execution output differs from the remotely claimed output. -/
def sampleRemoteLie : RemoteNode :=
  { blockchainHash := fun _ => .ok (some 1)
    blockchainHeader := fun _ => .ok (some ⟨[([1], [9])]⟩)
    execution_proof := fun _ _ _ => .ok ([4, 2], [[1], [9]])
    executor := fun _ _ _ => .ok ([9, 9], []) }

/-- A local node over a one-key state whose executor writes one key. -/
def sampleLocalNode : LocalNode :=
  { state_at := fun _ => .ok [([1], [2])]
    executor := fun _ _ _ => .ok ([7], [([1], some [3])]) }

/-- A sample key-unique state snapshot. -/
def sampleState : Store := [([1], [2]), ([3], [4])]

-- ### Basic association-list lemmas

theorem insertKV_cons {α : Type} (k : Bytes) (v : α) (p : Bytes × α) (rest : KVList α) :
    insertKV k v (p :: rest) = if k = p.1 then (k, v) :: rest else p :: insertKV k v rest := rfl

theorem lookup_insertKV_self {α : Type} (k : Bytes) (v : α) (m : KVList α) :
    lookupKV k (insertKV k v m) = some v := by
  induction m with
  | nil => simp [insertKV, lookupKV]
  | cons p rest ih =>
    by_cases h : k = p.1
    · simp [insertKV, lookupKV, h]
    · simp [insertKV, lookupKV, h, ih]

theorem lookup_insertKV_ne {α : Type} {k k1 : Bytes} (v : α) (m : KVList α)
    (hne : k ≠ k1) : lookupKV k (insertKV k1 v m) = lookupKV k m := by
  induction m with
  | nil => simp [insertKV, lookupKV, hne]
  | cons p rest ih =>
    by_cases h : k1 = p.1
    · subst h
      simp [insertKV, lookupKV, hne]
    · by_cases h2 : k = p.1
      · simp [insertKV, lookupKV, h, h2]
      · simp [insertKV, lookupKV, h, h2, ih]

theorem mem_keys_insertKV {α : Type} {x k : Bytes} {v : α} {m : KVList α}
    (h : x ∈ (insertKV k v m).map Prod.fst) : x = k ∨ x ∈ m.map Prod.fst := by
  induction m with
  | nil => simpa [insertKV] using h
  | cons p rest ih =>
    by_cases hk : k = p.1
    · subst hk
      rw [insertKV_cons, if_pos rfl, List.map_cons] at h
      rw [List.mem_cons] at h
      rcases h with h | h
      · exact Or.inl h
      · exact Or.inr (List.mem_cons_of_mem _ h)
    · rw [insertKV_cons, if_neg hk, List.map_cons] at h
      rw [List.mem_cons] at h
      rcases h with h | h
      · exact Or.inr (by simp [h])
      · rcases ih h with h1 | h1
        · exact Or.inl h1
        · exact Or.inr (by simp [h1])

theorem WF_insertKV {α : Type} {k : Bytes} {v : α} {m : KVList α}
    (h : WFStore m) : WFStore (insertKV k v m) := by
  induction m with
  | nil => simp [WFStore, insertKV]
  | cons p rest ih =>
    rw [WFStore, List.map_cons, List.nodup_cons] at h
    by_cases hk : k = p.1
    · subst hk
      rw [WFStore, insertKV_cons, if_pos rfl, List.map_cons, List.nodup_cons]
      exact ⟨h.1, h.2⟩
    · rw [WFStore, insertKV_cons, if_neg hk, List.map_cons, List.nodup_cons]
      refine ⟨fun hmem => ?_, ih h.2⟩
      rcases mem_keys_insertKV hmem with h1 | h1
      · exact hk h1.symm
      · exact h.1 h1

theorem lookup_eq_none_of_not_mem {α : Type} {k : Bytes} {m : KVList α}
    (h : k ∉ m.map Prod.fst) : lookupKV k m = none := by
  induction m with
  | nil => rfl
  | cons p rest ih =>
    simp only [List.map_cons, List.mem_cons] at h
    push_neg at h
    simp [lookupKV, h.1, ih h.2]

theorem mem_keys_of_lookup {α : Type} {k : Bytes} {v : α} {m : KVList α}
    (h : lookupKV k m = some v) : k ∈ m.map Prod.fst := by
  by_contra hmem
  rw [lookup_eq_none_of_not_mem hmem] at h
  exact Option.noConfusion h

theorem lookupLast_append {α : Type} (k : Bytes) (a b : KVList α) :
    lookupLast k (a ++ b) =
      match lookupLast k b with
      | some v => some v
      | none => lookupLast k a := by
  induction a with
  | nil =>
    cases h : lookupLast k b <;> simp [lookupLast, h]
  | cons p rest ih =>
    rw [List.cons_append]
    rw [lookupLast, ih]
    cases h : lookupLast k b <;> cases h2 : lookupLast k rest <;>
      simp [lookupLast, h, h2]

theorem lookupLast_eq_none_of_not_mem {α : Type} {k : Bytes} {m : KVList α}
    (h : k ∉ m.map Prod.fst) : lookupLast k m = none := by
  induction m with
  | nil => rfl
  | cons p rest ih =>
    simp only [List.map_cons, List.mem_cons] at h
    push_neg at h
    rw [lookupLast, ih h.2]
    simp [h.1]

theorem lookupLast_eq_lookup {α : Type} {k : Bytes} {m : KVList α}
    (h : WFStore m) : lookupLast k m = lookupKV k m := by
  induction m with
  | nil => rfl
  | cons p rest ih =>
    rw [WFStore, List.map_cons, List.nodup_cons] at h
    rw [lookupLast, lookupKV]
    by_cases hk : k = p.1
    · have hmem : k ∉ rest.map Prod.fst := hk ▸ h.1
      rw [lookupLast_eq_none_of_not_mem hmem]
      simp [hk]
    · simp only [if_neg hk]
      rw [ih h.2]
      cases lookupKV k rest <;> simp

theorem lookup_foldl_insert {α : Type} (k : Bytes) (l : KVList α) :
    ∀ acc : KVList α,
      lookupKV k (l.foldl (fun m p => insertKV p.1 p.2 m) acc) =
        match lookupLast k l with
        | some v => some v
        | none => lookupKV k acc := by
  induction l with
  | nil => intro acc; rfl
  | cons p rest ih =>
    intro acc
    rw [List.foldl_cons, ih]
    rw [lookupLast]
    cases h : lookupLast k rest with
    | some w => simp
    | none =>
      by_cases hk : k = p.1
      · subst hk
        simp [lookup_insertKV_self]
      · simp [hk, lookup_insertKV_ne _ _ hk]

theorem WF_foldl_insert {α : Type} (l : KVList α) :
    ∀ acc : KVList α, WFStore acc →
      WFStore (l.foldl (fun m p => insertKV p.1 p.2 m) acc) := by
  induction l with
  | nil => intro acc h; exact h
  | cons p rest ih =>
    intro acc h
    rw [List.foldl_cons]
    exact ih _ (WF_insertKV h)

-- ### The merged view of Ext::storage_root

theorem lookup_map_some (k : Bytes) (bk : Store) :
    lookupKV k (bk.map fun p => (p.1, some p.2)) = (lookupKV k bk).map some := by
  induction bk with
  | nil => rfl
  | cons p rest ih =>
    rw [List.map_cons, lookupKV, lookupKV]
    by_cases hk : k = p.1
    · simp [hk]
    · simp [hk, ih]

theorem lookupLast_map_some {k : Bytes} {bk : Store} (h : WFStore bk) :
    lookupLast k (bk.map fun p => (p.1, some p.2)) = (lookupKV k bk).map some := by
  have hwf : WFStore (bk.map fun p => (p.1, some p.2)) := by
    rw [WFStore, List.map_map]
    exact h
  rw [lookupLast_eq_lookup hwf, lookup_map_some]

theorem lookup_mergedOverlay (e : Ext) (k : Bytes) (hb : WFStore e.backend)
    (hc : WFStore e.overlay.committed) (hp : WFStore e.overlay.prospective) :
    lookupKV k (mergedOverlay e) =
      match e.overlay.storage k with
      | some x => some x
      | none => (lookupKV k e.backend).map some := by
  rw [mergedOverlay, lookup_foldl_insert, lookupLast_append, lookupLast_append]
  rw [lookupLast_eq_lookup hp, lookupLast_eq_lookup hc, lookupLast_map_some hb]
  rw [OverlayedChanges.storage]
  cases lookupKV k e.overlay.prospective with
  | some v => simp
  | none =>
    cases lookupKV k e.overlay.committed with
    | some v => simp
    | none =>
      cases lookupKV k e.backend with
      | some v => simp [lookupKV]
      | none => simp [lookupKV]

theorem WF_mergedOverlay (e : Ext) : WFStore (mergedOverlay e) := by
  rw [mergedOverlay]
  exact WF_foldl_insert _ _ (by simp [WFStore])

theorem lookupKV_cons {α : Type} (k : Bytes) (p : Bytes × α) (rest : KVList α) :
    lookupKV k (p :: rest) = if k = p.1 then some p.2 else lookupKV k rest := rfl

theorem dropTombstones_cons_none {p : Bytes × Option Bytes} (rest : OStore)
    (h : p.2 = none) : dropTombstones (p :: rest) = dropTombstones rest := by
  obtain ⟨k0, v0⟩ := p
  cases h
  rfl

theorem dropTombstones_cons_some {p : Bytes × Option Bytes} (rest : OStore) {v : Bytes}
    (h : p.2 = some v) : dropTombstones (p :: rest) = (p.1, v) :: dropTombstones rest := by
  obtain ⟨k0, v0⟩ := p
  cases h
  rfl

theorem lookup_dropTombstones {k : Bytes} {m : OStore} (h : WFStore m) :
    lookupKV k (dropTombstones m) = (lookupKV k m).bind id := by
  induction m with
  | nil => rfl
  | cons p rest ih =>
    rw [WFStore, List.map_cons, List.nodup_cons] at h
    cases hv : p.2 with
    | none =>
      rw [dropTombstones_cons_none rest hv, ih h.2]
      by_cases hk : k = p.1
      · subst hk
        rw [lookup_eq_none_of_not_mem h.1, lookupKV_cons, if_pos rfl, hv]
        rfl
      · rw [lookupKV_cons, if_neg hk]
    | some v =>
      rw [dropTombstones_cons_some rest hv]
      by_cases hk : k = p.1
      · subst hk
        rw [lookupKV_cons, if_pos rfl, lookupKV_cons, if_pos rfl, hv]
        rfl
      · rw [lookupKV_cons, if_neg hk, lookupKV_cons, if_neg hk, ih h.2]

theorem keys_dropTombstones_sublist (m : OStore) :
    ((dropTombstones m).map Prod.fst).Sublist (m.map Prod.fst) := by
  induction m with
  | nil => simp [dropTombstones]
  | cons p rest ih =>
    cases hv : p.2 with
    | none =>
      rw [dropTombstones_cons_none rest hv, List.map_cons]
      exact ih.cons _
    | some v =>
      rw [dropTombstones_cons_some rest hv, List.map_cons, List.map_cons]
      exact ih.cons₂ _

theorem WF_dropTombstones {m : OStore} (h : WFStore m) : WFStore (dropTombstones m) :=
  (keys_dropTombstones_sublist m).nodup h

-- ### The canonicalizing trie-root model

theorem bytesLt_irrefl (a : Bytes) : bytesLt a a = false := by
  induction a with
  | nil => rfl
  | cons x as ih => simp [bytesLt, ih]

theorem bytesLt_asymm : ∀ {a b : Bytes}, bytesLt a b = true → bytesLt b a = false
  | [], [], h => by simp [bytesLt] at h
  | [], _ :: _, _ => rfl
  | _ :: _, [], h => by simp [bytesLt] at h
  | x :: as, y :: bs, h => by
    rw [bytesLt] at h
    rw [bytesLt]
    by_cases hxy : x < y
    · have hyx : ¬ y < x := by omega
      rw [if_neg hyx, if_pos hxy]
    · by_cases hyx : y < x
      · rw [if_neg hxy, if_pos hyx] at h
        exact Bool.noConfusion h
      · rw [if_neg hxy, if_neg hyx] at h
        rw [if_neg hyx, if_neg hxy]
        exact bytesLt_asymm h

theorem bytesLt_trans : ∀ {a b c : Bytes}, bytesLt a b = true → bytesLt b c = true →
    bytesLt a c = true
  | [], [], _, h, _ => by simp [bytesLt] at h
  | [], _ :: _, [], _, h2 => by simp [bytesLt] at h2
  | [], _ :: _, _ :: _, _, _ => rfl
  | _ :: _, [], _, h, _ => by simp [bytesLt] at h
  | _ :: _, _ :: _, [], _, h2 => by simp [bytesLt] at h2
  | x :: as, y :: bs, z :: cs, h, h2 => by
    rw [bytesLt] at h h2
    rw [bytesLt]
    by_cases hxy : x < y <;> by_cases hyz : y < z
    · have : x < z := by omega
      simp [this]
    · simp only [if_neg hyz] at h2
      by_cases hzy : z < y
      · simp [hzy] at h2
      · have : x < z := by omega
        simp [this]
    · simp only [if_neg hxy] at h
      by_cases hyx : y < x
      · simp [hyx] at h
      · have : x < z := by omega
        simp [this]
    · simp only [if_neg hxy] at h
      simp only [if_neg hyz] at h2
      by_cases hyx : y < x
      · simp [hyx] at h
      · by_cases hzy : z < y
        · simp [hzy] at h2
        · have hxz : ¬ x < z := by omega
          have hzx : ¬ z < x := by omega
          simp only [if_neg hxz, if_neg hzx]
          exact bytesLt_trans (by simpa [hyx] using h) (by simpa [hzy] using h2)

theorem bytesLt_connex : ∀ {a b : Bytes}, a ≠ b →
    bytesLt a b = true ∨ bytesLt b a = true
  | [], [], h => absurd rfl h
  | [], _ :: _, _ => Or.inl rfl
  | _ :: _, [], _ => Or.inr rfl
  | x :: as, y :: bs, h => by
    by_cases hxy : x < y
    · exact Or.inl (by rw [bytesLt]; simp [hxy])
    · by_cases hyx : y < x
      · exact Or.inr (by rw [bytesLt]; simp [hyx])
      · have hx : x = y := by omega
        subst hx
        have hab : as ≠ bs := fun he => h (he ▸ rfl)
        rcases bytesLt_connex hab with h1 | h1
        · exact Or.inl (by rw [bytesLt]; simpa using h1)
        · exact Or.inr (by rw [bytesLt]; simpa using h1)

theorem sortedInsert_cons (k : Bytes) (v : Bytes) (p : Bytes × Bytes) (rest : Store) :
    sortedInsert k v (p :: rest) =
      if bytesLt k p.1 then (k, v) :: p :: rest
      else if k = p.1 then (k, v) :: rest
      else p :: sortedInsert k v rest := rfl

theorem lookup_sortedInsert_self (k : Bytes) (v : Bytes) (s : Store) :
    lookupKV k (sortedInsert k v s) = some v := by
  induction s with
  | nil => simp [sortedInsert, lookupKV]
  | cons p rest ih =>
    rw [sortedInsert_cons]
    by_cases h1 : bytesLt k p.1
    · rw [if_pos h1, lookupKV_cons, if_pos rfl]
    · rw [if_neg h1]
      by_cases h2 : k = p.1
      · rw [if_pos h2, lookupKV_cons, if_pos rfl]
      · rw [if_neg h2, lookupKV_cons, if_neg h2]
        exact ih

theorem lookup_sortedInsert_ne {k k1 : Bytes} (v : Bytes) (s : Store) (hne : k ≠ k1) :
    lookupKV k (sortedInsert k1 v s) = lookupKV k s := by
  induction s with
  | nil => simp [sortedInsert, lookupKV, hne]
  | cons p rest ih =>
    rw [sortedInsert_cons]
    by_cases h1 : bytesLt k1 p.1
    · simp [h1, lookupKV_cons, hne]
    · by_cases h2 : k1 = p.1
      · subst h2
        simp [h1, lookupKV_cons, hne]
      · by_cases h3 : k = p.1
        · simp [h1, h2, h3, lookupKV_cons]
        · simp [h1, h2, h3, lookupKV_cons, ih]

theorem mem_sortedInsert {q : Bytes × Bytes} {k v : Bytes} {s : Store}
    (h : q ∈ sortedInsert k v s) : q.1 = k ∨ q ∈ s := by
  induction s with
  | nil =>
    simp [sortedInsert] at h
    exact Or.inl (by rw [h])
  | cons p rest ih =>
    rw [sortedInsert_cons] at h
    by_cases h1 : bytesLt k p.1
    · rw [if_pos h1, List.mem_cons] at h
      rcases h with h | h
      · exact Or.inl (by rw [h])
      · exact Or.inr h
    · rw [if_neg h1] at h
      by_cases h2 : k = p.1
      · rw [if_pos h2, List.mem_cons] at h
        rcases h with h | h
        · exact Or.inl (by rw [h])
        · exact Or.inr (List.mem_cons_of_mem _ h)
      · rw [if_neg h2, List.mem_cons] at h
        rcases h with h | h
        · exact Or.inr (by rw [h]; exact List.mem_cons_self _ _)
        · rcases ih h with h3 | h3
          · exact Or.inl h3
          · exact Or.inr (List.mem_cons_of_mem _ h3)

theorem sortedKeys_sortedInsert {k v : Bytes} {s : Store} (h : SortedKeys s) :
    SortedKeys (sortedInsert k v s) := by
  induction s with
  | nil => simp [sortedInsert, SortedKeys]
  | cons p rest ih =>
    rw [SortedKeys, List.pairwise_cons] at h
    rw [sortedInsert_cons]
    by_cases h1 : bytesLt k p.1
    · rw [if_pos h1]
      rw [SortedKeys, List.pairwise_cons]
      constructor
      · intro q hq
        rw [List.mem_cons] at hq
        rcases hq with hq | hq
        · rw [hq]; exact h1
        · exact bytesLt_trans h1 (h.1 q hq)
      · rw [List.pairwise_cons]
        exact h
    · rw [if_neg h1]
      by_cases h2 : k = p.1
      · rw [if_pos h2]
        rw [SortedKeys, List.pairwise_cons]
        exact ⟨fun q hq => h2 ▸ h.1 q hq, h.2⟩
      · rw [if_neg h2]
        rw [SortedKeys, List.pairwise_cons]
        constructor
        · intro q hq
          rcases mem_sortedInsert hq with h3 | h3
          · rw [h3]
            rcases bytesLt_connex h2 with h4 | h4
            · exact absurd h4 h1
            · exact h4
          · exact h.1 q h3
        · exact ih h.2

theorem lookup_foldl_sortedInsert (k : Bytes) (l : Store) :
    ∀ acc : Store,
      lookupKV k (l.foldl (fun m p => sortedInsert p.1 p.2 m) acc) =
        match lookupLast k l with
        | some v => some v
        | none => lookupKV k acc := by
  induction l with
  | nil => intro acc; rfl
  | cons p rest ih =>
    intro acc
    rw [List.foldl_cons, ih]
    rw [lookupLast]
    cases h : lookupLast k rest with
    | some w => simp
    | none =>
      by_cases hk : k = p.1
      · subst hk
        simp [lookup_sortedInsert_self]
      · simp [hk, lookup_sortedInsert_ne _ _ hk]

theorem sortedKeys_canon (s : Store) : SortedKeys (canon s) := by
  rw [canon]
  have hgen : ∀ acc : Store, SortedKeys acc →
      SortedKeys (s.foldl (fun m p => sortedInsert p.1 p.2 m) acc) := by
    induction s with
    | nil => intro acc h; exact h
    | cons p rest ih =>
      intro acc h
      rw [List.foldl_cons]
      exact ih _ (sortedKeys_sortedInsert h)
  exact hgen [] (by simp [SortedKeys])

theorem lookup_canon {s : Store} (h : WFStore s) (k : Bytes) :
    lookupKV k (canon s) = lookupKV k s := by
  rw [canon, lookup_foldl_sortedInsert, lookupLast_eq_lookup h]
  cases lookupKV k s <;> rfl

theorem WF_of_sortedKeys {s : Store} (h : SortedKeys s) : WFStore s := by
  rw [WFStore]
  have hmap : (s.map Prod.fst).Pairwise fun x y => bytesLt x y = true :=
    List.Pairwise.map Prod.fst (fun a b hab => hab) h
  exact hmap.imp fun {a b} hab he => by
    rw [he, bytesLt_irrefl] at hab
    exact Bool.noConfusion hab

theorem sorted_lookup_ext : ∀ {s1 s2 : Store}, SortedKeys s1 → SortedKeys s2 →
    (∀ k, lookupKV k s1 = lookupKV k s2) → s1 = s2
  | [], [], _, _, _ => rfl
  | [], p :: rest, _, _, hl => by
    have := hl p.1
    rw [lookupKV_cons, if_pos rfl] at this
    exact Option.noConfusion this
  | p :: rest, [], _, _, hl => by
    have := hl p.1
    rw [lookupKV_cons, if_pos rfl] at this
    exact Option.noConfusion this
  | p :: rest, q :: rest2, h1, h2, hl => by
    rw [SortedKeys, List.pairwise_cons] at h1 h2
    have hkeq : p.1 = q.1 := by
      by_contra hne
      have hp : lookupKV p.1 (q :: rest2) = some p.2 := by
        rw [← hl p.1, lookupKV_cons, if_pos rfl]
      have hq : lookupKV q.1 (p :: rest) = some q.2 := by
        rw [hl q.1, lookupKV_cons, if_pos rfl]
      rw [lookupKV_cons, if_neg hne] at hp
      rw [lookupKV_cons, if_neg (fun he => hne he.symm)] at hq
      have hp1 : p.1 ∈ rest2.map Prod.fst := mem_keys_of_lookup hp
      have hq1 : q.1 ∈ rest.map Prod.fst := mem_keys_of_lookup hq
      obtain ⟨pp, hpp, hpp1⟩ := List.mem_map.1 hp1
      obtain ⟨qq, hqq, hqq1⟩ := List.mem_map.1 hq1
      have hlt1 : bytesLt q.1 p.1 = true := hpp1 ▸ h2.1 pp hpp
      have hlt2 : bytesLt p.1 q.1 = true := hqq1 ▸ h1.1 qq hqq
      rw [bytesLt_asymm hlt2] at hlt1
      exact Bool.noConfusion hlt1
    have hveq : p.2 = q.2 := by
      have := hl p.1
      rw [lookupKV_cons, if_pos rfl, lookupKV_cons, if_pos hkeq] at this
      exact Option.some_injective _ this
    have hrest : ∀ k0, lookupKV k0 rest = lookupKV k0 rest2 := by
      intro k0
      by_cases hk : k0 = p.1
      · have hnr1 : p.1 ∉ rest.map Prod.fst := by
          intro hmem
          obtain ⟨qq, hqq, hqq1⟩ := List.mem_map.1 hmem
          have hbad := h1.1 qq hqq
          rw [hqq1, bytesLt_irrefl] at hbad
          exact Bool.noConfusion hbad
        have hnr2 : p.1 ∉ rest2.map Prod.fst := by
          intro hmem
          obtain ⟨qq, hqq, hqq1⟩ := List.mem_map.1 hmem
          have hbad := h2.1 qq hqq
          rw [hqq1, ← hkeq, bytesLt_irrefl] at hbad
          exact Bool.noConfusion hbad
        rw [hk, lookup_eq_none_of_not_mem hnr1, lookup_eq_none_of_not_mem hnr2]
      · have := hl k0
        rw [lookupKV_cons, if_neg hk, lookupKV_cons, if_neg (hkeq ▸ hk)] at this
        exact this
    have htail : rest = rest2 :=
      sorted_lookup_ext h1.2 h2.2 hrest
    have hpq : p = q := by
      obtain ⟨a, b⟩ := p
      obtain ⟨c, d⟩ := q
      simp only [Prod.mk.injEq]
      exact ⟨hkeq, hveq⟩
    rw [hpq, htail]

/-- The trie-root model is order-independent: it agrees on any two
well-formed representations of the same key/value set. -/
theorem trie_root_congr {s1 s2 : Store} (h1 : WFStore s1) (h2 : WFStore s2)
    (hl : ∀ k, lookupKV k s1 = lookupKV k s2) : trie_root s1 = trie_root s2 := by
  rw [trie_root, trie_root]
  exact sorted_lookup_ext (sortedKeys_canon s1) (sortedKeys_canon s2)
    (fun k => by rw [lookup_canon h1, lookup_canon h2, hl])

/-- The value set fed to the trie-root function in Ext::storage_root has, at
every key, exactly the value Ext::storage resolves for that key. -/
theorem lookup_merged_eq_storage (e : Ext) (k : Bytes) (hb : WFStore e.backend)
    (hc : WFStore e.overlay.committed) (hp : WFStore e.overlay.prospective) :
    lookupKV k (dropTombstones (mergedOverlay e)) = e.storage k := by
  rw [lookup_dropTombstones (WF_mergedOverlay e)]
  rw [lookup_mergedOverlay e k hb hc hp]
  rw [Ext.storage]
  cases e.overlay.storage k with
  | some x => cases x <;> rfl
  | none => cases lookupKV k e.backend <;> rfl

-- ### Odd-length proofs and the decode loop

theorem dropLast_cons_cons {γ : Type} (a b : γ) (l : List γ) :
    (a :: b :: l).dropLast = a :: (b :: l).dropLast := rfl

theorem fromProofLoop_odd_drop (n : Nat) :
    ∀ l : List Bytes, l.length ≤ n → l.length % 2 = 1 → ∀ acc : Store,
      fromProofLoop l acc = fromProofLoop l.dropLast acc := by
  induction n with
  | zero =>
    intro l hl h acc
    have hnil : l = [] := List.eq_nil_of_length_eq_zero (Nat.le_zero.1 hl)
    rw [hnil] at h
    simp at h
  | succ n ih =>
    intro l hl h acc
    cases l with
    | nil => simp at h
    | cons k t =>
      cases t with
      | nil => rfl
      | cons v rest =>
        have hr : rest.length % 2 = 1 := by
          simp only [List.length_cons] at h
          omega
        have hlen : rest.length ≤ n := by
          simp only [List.length_cons] at hl
          omega
        have hne : rest ≠ [] := by
          intro he
          rw [he] at hr
          simp at hr
        obtain ⟨r, rs, rfl⟩ := List.exists_cons_of_ne_nil hne
        exact ih (r :: rs) hlen hr (insertKV k v acc)

-- ### Claim theorems

/-- C3, counterexample: the one-element (odd-length) proof [[1]] is not
rejected by state_from_execution_proof; the rebuild silently truncates it,
returning exactly the state the empty proof yields, with no error signal of
any kind (the function cannot even express one). -/
theorem state_from_execution_proof_no_reject_counterexample :
    ([[1]] : List Bytes).length % 2 = 1 ∧
    state_from_execution_proof [[1]] = state_from_execution_proof [] ∧
    state_from_execution_proof [[1]] = [] := by
  refine ⟨rfl, rfl, rfl⟩

/-- C3 (amended): for every execution proof with an odd number of byte-string
elements, state_from_execution_proof silently drops the unpaired trailing
element — it rebuilds exactly the state of the proof with its last element
removed, and raises no malformed-proof error. -/
theorem state_from_execution_proof_odd_truncates (proof : List Bytes)
    (h : proof.length % 2 = 1) :
    state_from_execution_proof proof = state_from_execution_proof proof.dropLast := by
  rw [state_from_execution_proof, state_from_execution_proof]
  exact fromProofLoop_odd_drop proof.length proof (Nat.le_refl _) h []

/-- Witness for C3 (amended) at the concrete odd proof [[1], [2], [3]]. -/
theorem state_from_execution_proof_odd_truncates_witness :
    state_from_execution_proof [[1], [2], [3]] =
      state_from_execution_proof ([[1], [2], [3]] : List Bytes).dropLast :=
  state_from_execution_proof_odd_truncates [[1], [2], [3]] (by decide)

/-- C5: Ext::storage resolves with precedence prospective over committed over
backend: a key present in all three resolves to the prospective value; a key
whose overlay resolution is a tombstone reads as None even when the backend
holds a value; a key the overlay has no opinion on reads from the backend. -/
theorem ext_storage_precedence (e : Ext) (k : Bytes) :
    (∀ bv cv pv, lookupKV k e.backend = some bv →
      lookupKV k e.overlay.committed = some cv →
      lookupKV k e.overlay.prospective = some pv →
      e.storage k = pv) ∧
    (e.overlay.storage k = some none → e.storage k = none) ∧
    (e.overlay.storage k = none → e.storage k = lookupKV k e.backend) := by
  refine ⟨fun bv cv pv _ _ hpv => ?_, fun hts => ?_, fun hno => ?_⟩
  · rw [Ext.storage, OverlayedChanges.storage, hpv]
  · rw [Ext.storage, hts]
  · rw [Ext.storage, hno]

/-- Witness for C5: in sampleExt the key [1] is present in the backend
(value [2]), the committed tier (value [3]) and the prospective tier
(value [4]); the resolved read is the prospective value [4]. -/
theorem ext_storage_precedence_witness :
    Ext.storage sampleExt [1] = some [4] :=
  (ext_storage_precedence sampleExt [1]).1 [2] (some [3]) (some [4])
    (by decide) (by decide) (by decide)

/-- C8: Ext::place_storage records the write in the overlay only — the
committed tier and the backend of the resulting view are unchanged — and the
write is visible to subsequent Ext::storage reads of that key, while reads
of other keys are untouched. -/
theorem place_storage_overlay_only (e : Ext) (k : Bytes) (v : Option Bytes) :
    (e.place_storage k v).overlay.committed = e.overlay.committed ∧
    (e.place_storage k v).backend = e.backend ∧
    (e.place_storage k v).storage k = v ∧
    ∀ k0, k0 ≠ k → (e.place_storage k v).storage k0 = e.storage k0 := by
  refine ⟨rfl, rfl, ?_, fun k0 hk0 => ?_⟩
  · simp [Ext.storage, Ext.place_storage, OverlayedChanges.set_storage,
      OverlayedChanges.storage, lookup_insertKV_self]
  · simp [Ext.storage, Ext.place_storage, OverlayedChanges.set_storage,
      OverlayedChanges.storage, lookup_insertKV_ne, hk0]

/-- Witness for C8: after placing [9] at key [1] over sampleExt, the
committed tier is untouched, the backend is untouched, the read of [1]
returns [9], and the read of the untouched key [7] is unchanged. -/
theorem place_storage_overlay_only_witness :
    (sampleExt.place_storage [1] (some [9])).storage [7] = sampleExt.storage [7] :=
  (place_storage_overlay_only sampleExt [1] (some [9])).2.2.2 [7] (by decide)

/-- C9: RemoteCallExecutor::call_at_state fails with
NotAvailableOnLightClient for every node, state, changes, method and input,
performing no execution at all. -/
theorem remote_call_at_state_not_available (node : RemoteNode) (state : Store)
    (changes : OverlayedChanges) (method : String) (callData : Bytes) :
    RemoteCallExecutor.call_at_state node state changes method callData =
      .error .notAvailableOnLightClient := rfl

/-- C1: whenever the trie root of the state rebuilt from the fetched proof
differs from the state root recorded in the locally-held header for the
resolved block hash, RemoteCallExecutor::call fails with
InvalidExecutionProof — it never returns a CallResult, whatever the code
executor would have produced (local execution is not reached). -/
theorem remote_call_root_mismatch (node : RemoteNode) (id : BlockId) (method : String)
    (callData : Bytes) (bh : Nat) (remote_result : Bytes) (remote_proof : List Bytes)
    (hd : Header)
    (hres : resolveBlockHash node id = .ok bh)
    (hfetch : node.execution_proof bh method callData = .ok (remote_result, remote_proof))
    (hheader : node.blockchainHeader bh = .ok (some hd))
    (hroot : trie_root (state_from_execution_proof remote_proof) ≠ hd.state_root) :
    RemoteCallExecutor.call node id method callData = .error .invalidExecutionProof := by
  rw [RemoteCallExecutor.call, hres]
  simp only [hfetch, hheader]
  rw [if_pos hroot]

/-- Witness for C1: sampleRemoteBadProof's proof rebuilds to a state with
root over key [1] value [9], while its header records a root over key [1]
value [1]; the call fails with InvalidExecutionProof. -/
theorem remote_call_root_mismatch_witness :
    RemoteCallExecutor.call sampleRemoteBadProof (.hash 1) "m" [] =
      .error .invalidExecutionProof :=
  remote_call_root_mismatch sampleRemoteBadProof (.hash 1) "m" [] 1 [4, 2] [[1], [9]]
    ⟨[([1], [1])]⟩ rfl rfl rfl (by decide)

/-- C2: when the rebuilt root matches the header's state root, the remote
call verifies the remote claim against local re-execution: if the local
output differs byte-for-byte from the remotely claimed output the call fails
with InvalidExecutionProof, and if they are equal it succeeds and returns
the local output. -/
theorem remote_call_output_check (node : RemoteNode) (id : BlockId) (method : String)
    (callData : Bytes) (bh : Nat) (remote_result : Bytes) (remote_proof : List Bytes)
    (hd : Header) (local_result : Bytes) (writes : List (Bytes × Option Bytes))
    (hres : resolveBlockHash node id = .ok bh)
    (hfetch : node.execution_proof bh method callData = .ok (remote_result, remote_proof))
    (hheader : node.blockchainHeader bh = .ok (some hd))
    (hroot : trie_root (state_from_execution_proof remote_proof) = hd.state_root)
    (hexec : node.executor (state_from_execution_proof remote_proof) method callData =
      .ok (local_result, writes)) :
    (local_result ≠ remote_result →
      RemoteCallExecutor.call node id method callData = .error .invalidExecutionProof) ∧
    (local_result = remote_result →
      ∃ changes, RemoteCallExecutor.call node id method callData =
        .ok ⟨local_result, changes⟩) := by
  have hcall : RemoteCallExecutor.call node id method callData =
      if local_result ≠ remote_result then .error .invalidExecutionProof
      else .ok ⟨local_result,
        ((writes.foldl (fun (e : Ext) w => e.place_storage w.1 w.2)
          ⟨OverlayedChanges.empty, state_from_execution_proof remote_proof⟩).overlay)⟩ := by
    rw [RemoteCallExecutor.call, hres]
    simp only [hfetch, hheader]
    rw [if_neg (fun hcon => hcon hroot)]
    rw [stateMachineExecute, hexec]
  constructor
  · intro hne
    rw [hcall, if_pos hne]
  · intro heq
    refine ⟨(writes.foldl (fun (e : Ext) w => e.place_storage w.1 w.2)
      ⟨OverlayedChanges.empty, state_from_execution_proof remote_proof⟩).overlay, ?_⟩
    rw [hcall, if_neg (fun hcon => hcon heq)]

/-- Witness for C2: sampleRemoteLie's proof matches its header root, but the
local re-execution yields [9, 9] while the remote node claimed [4, 2]; the
call fails with InvalidExecutionProof. -/
theorem remote_call_output_check_witness :
    RemoteCallExecutor.call sampleRemoteLie (.hash 1) "m" [] =
      .error .invalidExecutionProof :=
  (remote_call_output_check sampleRemoteLie (.hash 1) "m" [] 1 [4, 2] [[1], [9]]
    ⟨[([1], [9])]⟩ [9, 9] [] rfl rfl rfl (by decide) rfl).1 (by decide)

-- ### Round-trip of the proof encoding

theorem insertKV_append_of_not_mem {α : Type} {k : Bytes} (v : α) {m : KVList α}
    (h : k ∉ m.map Prod.fst) : insertKV k v m = m ++ [(k, v)] := by
  induction m with
  | nil => rfl
  | cons p rest ih =>
    simp only [List.map_cons, List.mem_cons] at h
    push_neg at h
    rw [insertKV_cons, if_neg h.1, ih h.2, List.cons_append]

theorem fromProofLoop_toProof (state : Store) :
    ∀ acc : Store,
      (∀ k0, k0 ∈ state.map Prod.fst → k0 ∉ acc.map Prod.fst) → WFStore state →
      fromProofLoop (state_to_execution_proof state) acc = acc ++ state := by
  induction state with
  | nil =>
    intro acc _ _
    simp [state_to_execution_proof, fromProofLoop]
  | cons p rest ih =>
    intro acc hdisj hwf
    rw [WFStore, List.map_cons, List.nodup_cons] at hwf
    have hstep : state_to_execution_proof (p :: rest) =
        p.1 :: p.2 :: state_to_execution_proof rest := by
      rw [state_to_execution_proof, state_to_execution_proof, List.flatMap_cons]
      rfl
    rw [hstep]
    have hins : insertKV p.1 p.2 acc = acc ++ [(p.1, p.2)] :=
      insertKV_append_of_not_mem p.2 (hdisj p.1 (by simp))
    have hdisj2 : ∀ k0, k0 ∈ rest.map Prod.fst →
        k0 ∉ (acc ++ [(p.1, p.2)]).map Prod.fst := by
      intro k0 hk0
      rw [List.map_append, List.mem_append]
      push_neg
      constructor
      · exact hdisj k0 (by simp [hk0])
      · simp only [List.map_cons, List.map_nil, List.mem_singleton]
        intro he
        exact hwf.1 (he ▸ hk0)
    have := ih (acc ++ [(p.1, p.2)]) hdisj2 hwf.2
    show fromProofLoop (state_to_execution_proof rest) (insertKV p.1 p.2 acc) =
      acc ++ p :: rest
    rw [hins, this, List.append_assoc]
    rfl

/-- C6: encoding a well-formed (key-unique, as every hash-map state is)
key/value set into the flattened alternating key/value proof form and
decoding it back yields exactly the original set. -/
theorem proof_round_trip (state : Store) (h : WFStore state) :
    state_from_execution_proof (state_to_execution_proof state) = state := by
  rw [state_from_execution_proof]
  rw [fromProofLoop_toProof state [] (by simp) h]
  rfl

/-- Witness for C6 at the two-key state sampleState. -/
theorem proof_round_trip_witness :
    state_from_execution_proof (state_to_execution_proof sampleState) = sampleState :=
  proof_round_trip sampleState (by decide)

-- ### The local executor starts from a fresh overlay

theorem foldl_place_storage_committed (writes : List (Bytes × Option Bytes)) :
    ∀ e : Ext,
      (writes.foldl (fun (e : Ext) w => e.place_storage w.1 w.2) e).overlay.committed =
        e.overlay.committed := by
  induction writes with
  | nil => intro e; rfl
  | cons w rest ih =>
    intro e
    rw [List.foldl_cons, ih]
    rfl

/-- C10: every successful LocalCallExecutor::call starts execution from a
freshly created empty OverlayedChanges, so the committed tier of the
returned changes is empty: every storage mutation the call made sits in the
prospective tier only. -/
theorem local_call_committed_empty (node : LocalNode) (id : BlockId) (method : String)
    (callData : Bytes) (res : CallResult)
    (h : LocalCallExecutor.call node id method callData = .ok res) :
    res.changes.committed = [] := by
  rw [LocalCallExecutor.call] at h
  cases hstate : node.state_at id with
  | error e =>
    rw [hstate] at h
    exact Except.noConfusion h
  | ok state =>
    rw [hstate] at h
    cases hexec : node.executor state method callData with
    | error e =>
      have h2 : (Except.error e : Except ClientError CallResult) = .ok res := by
        rw [← h]
        show Except.error e =
          match stateMachineExecute node.executor state OverlayedChanges.empty
              method callData with
          | .error e => .error e
          | .ok (return_data, changes) =>
            .ok (⟨return_data, changes⟩ : CallResult)
        rw [stateMachineExecute, hexec]
      exact Except.noConfusion h2
    | ok outw =>
      obtain ⟨out, writes⟩ := outw
      have h2 : (Except.ok ⟨out,
          ((writes.foldl (fun (e : Ext) w => e.place_storage w.1 w.2)
            ⟨OverlayedChanges.empty, state⟩).overlay)⟩ :
          Except ClientError CallResult) = .ok res := by
        rw [← h]
        show Except.ok _ =
          match stateMachineExecute node.executor state OverlayedChanges.empty
              method callData with
          | .error e => .error e
          | .ok (return_data, changes) =>
            .ok (⟨return_data, changes⟩ : CallResult)
        rw [stateMachineExecute, hexec]
      have hres := Except.ok.inj h2
      rw [← hres]
      show ((writes.foldl (fun (e : Ext) w => e.place_storage w.1 w.2)
        ⟨OverlayedChanges.empty, state⟩).overlay).committed = []
      rw [foldl_place_storage_committed]
      rfl

/-- Witness for C10: the sample local node's call succeeds and its returned
changes carry an empty committed tier. -/
theorem local_call_committed_empty_witness :
    (⟨[7], ⟨[], [([1], some [3])]⟩⟩ : CallResult).changes.committed = [] :=
  local_call_committed_empty sampleLocalNode (.hash 0) "m" []
    ⟨[7], ⟨[], [([1], some [3])]⟩⟩ rfl

-- ### The spec-side merged set of C4

theorem lookup_filterMap_keys (g : Bytes → Option Bytes) (k : Bytes) :
    ∀ ks : List Bytes, ks.Nodup →
      lookupKV k (ks.filterMap fun k0 => (g k0).map fun v => (k0, v)) =
        if k ∈ ks then g k else none := by
  intro ks
  induction ks with
  | nil =>
    intro _
    simp [lookupKV]
  | cons a t ih =>
    intro hnd
    rw [List.nodup_cons] at hnd
    rw [List.filterMap_cons]
    cases hg : g a with
    | none =>
      show lookupKV k (t.filterMap fun k0 => (g k0).map fun v => (k0, v)) =
        if k ∈ a :: t then g k else none
      rw [ih hnd.2]
      by_cases hk : k = a
      · rw [if_neg (hk ▸ hnd.1), if_pos (by simp [hk]), hk, hg]
      · by_cases hmem : k ∈ t
        · rw [if_pos hmem, if_pos (List.mem_cons_of_mem _ hmem)]
        · rw [if_neg hmem, if_neg (by simp [hk, hmem])]
    | some v =>
      show lookupKV k ((a, v) :: t.filterMap fun k0 => (g k0).map fun v => (k0, v)) =
        if k ∈ a :: t then g k else none
      rw [lookupKV_cons]
      by_cases hk : k = a
      · rw [if_pos hk, if_pos (by simp [hk]), hk, hg]
      · rw [if_neg hk, ih hnd.2]
        by_cases hmem : k ∈ t
        · rw [if_pos hmem, if_pos (List.mem_cons_of_mem _ hmem)]
        · rw [if_neg hmem, if_neg (by simp [hk, hmem])]

theorem keys_filterMap_keys_sublist (g : Bytes → Option Bytes) (ks : List Bytes) :
    ((ks.filterMap fun k0 => (g k0).map fun v => (k0, v)).map Prod.fst).Sublist ks := by
  induction ks with
  | nil => simp
  | cons a t ih =>
    rw [List.filterMap_cons]
    cases hg : g a with
    | none => exact ih.cons _
    | some v =>
      show (((a, v) :: t.filterMap fun k0 => (g k0).map fun v => (k0, v)).map
        Prod.fst).Sublist (a :: t)
      rw [List.map_cons]
      exact ih.cons₂ _

theorem WF_specMergedSet (e : Ext) : WFStore (specMergedSet e) :=
  (keys_filterMap_keys_sublist _ _).nodup (List.nodup_dedup _)

theorem storage_eq_none_of_not_mem_extKeys {e : Ext} {k : Bytes}
    (h : k ∉ extKeys e) : e.storage k = none := by
  rw [extKeys, List.mem_dedup] at h
  rw [List.mem_append, List.mem_append] at h
  push_neg at h
  rw [Ext.storage, OverlayedChanges.storage,
    lookup_eq_none_of_not_mem h.2, lookup_eq_none_of_not_mem h.1.2,
    lookup_eq_none_of_not_mem h.1.1]

/-- C4: Ext::storage_root is the trie root of exactly the merged set the spec
describes — all backend pairs, overlaid by the committed then the
prospective tier (later tier winning), with every tombstoned key dropped;
stated here through the independently built specMergedSet, whose entry at
each key is the read Ext::storage resolves with prospective-over-
committed-over-backend precedence. -/
theorem storage_root_merged_spec (e : Ext) (hb : WFStore e.backend)
    (hc : WFStore e.overlay.committed) (hp : WFStore e.overlay.prospective) :
    e.storage_root = trie_root (specMergedSet e) := by
  rw [Ext.storage_root]
  refine trie_root_congr (WF_dropTombstones (WF_mergedOverlay e)) (WF_specMergedSet e)
    fun k => ?_
  rw [lookup_merged_eq_storage e k hb hc hp]
  rw [specMergedSet, lookup_filterMap_keys e.storage k (extKeys e) (List.nodup_dedup _)]
  by_cases hmem : k ∈ extKeys e
  · rw [if_pos hmem]
  · rw [if_neg hmem, storage_eq_none_of_not_mem_extKeys hmem]

/-- Witness for C4 at sampleExt (whose backend and overlay tiers are all
key-unique, as every hash map is). -/
theorem storage_root_merged_spec_witness :
    Ext.storage_root sampleExt = trie_root (specMergedSet sampleExt) :=
  storage_root_merged_spec sampleExt (by decide) (by decide) (by decide)

/-- C7: the storage root is stable — computing it twice with no intervening
write yields the same value, and placing any value at a key and then
re-placing that key's original resolved value restores the original root. -/
theorem storage_root_write_revert (e : Ext) (k : Bytes) (v : Option Bytes)
    (hb : WFStore e.backend) (hc : WFStore e.overlay.committed)
    (hp : WFStore e.overlay.prospective) :
    e.storage_root = e.storage_root ∧
    ((e.place_storage k v).place_storage k (e.storage k)).storage_root =
      e.storage_root := by
  refine ⟨rfl, ?_⟩
  have hp2 : WFStore ((e.place_storage k v).place_storage k
      (e.storage k)).overlay.prospective := WF_insertKV (WF_insertKV hp)
  rw [Ext.storage_root, Ext.storage_root]
  refine trie_root_congr
    (WF_dropTombstones (WF_mergedOverlay _)) (WF_dropTombstones (WF_mergedOverlay _))
    fun k0 => ?_
  rw [lookup_merged_eq_storage ((e.place_storage k v).place_storage k (e.storage k))
    k0 hb hc hp2, lookup_merged_eq_storage e k0 hb hc hp]
  by_cases hk : k0 = k
  · subst hk
    simp [Ext.storage, Ext.place_storage, OverlayedChanges.set_storage,
      OverlayedChanges.storage, lookup_insertKV_self]
  · simp [Ext.storage, Ext.place_storage, OverlayedChanges.set_storage,
      OverlayedChanges.storage, lookup_insertKV_ne, hk]

/-- Witness for C7: writing [9] at key [1] over sampleExt and re-setting the
original resolved value restores sampleExt's storage root. -/
theorem storage_root_write_revert_witness :
    ((sampleExt.place_storage [1] (some [9])).place_storage [1]
      (sampleExt.storage [1])).storage_root = sampleExt.storage_root :=
  (storage_root_write_revert sampleExt [1] (some [9])
    (by decide) (by decide) (by decide)).2

end Polkadot
